import Mathlib

/-!
Verification of the MCP protocol client and tool-call orchestration core of
the nexus-ai repository, as a shallow embedding in Lean.

Strings are modelled as `List Char` so that splitting, trimming and
concatenation reason well.  JavaScript `Map`s keyed by ids are modelled as
association lists with `Map.get`/`Map.set`/`Map.delete` counterparts.
Effectful steps (spawning, network sends, timers) are made explicit: either
as parameters describing their outcome or as event traces returned
alongside the new state.  The file first gives all definitions, then all
theorems.
-/

namespace Nexus

/-- JavaScript string as a list of characters. -/
abbrev Str := List Char

/-- Concatenation of a list of strings (used to compare different
chunk-slicings of one byte stream). -/
def concatAll : List Str → Str
  | [] => []
  | x :: xs => x ++ concatAll xs

/-- JavaScript whitespace test for the characters relevant to
`String.trim`. -/
def isWs (c : Char) : Bool :=
  c = ' ' || c = '\n' || c = '\t' || c = '\r'

/-- JavaScript `String.prototype.trim`: strip whitespace from both ends. -/
def trimChars (s : Str) : Str :=
  ((s.dropWhile isWs).reverse.dropWhile isWs).reverse

/-- JavaScript `String.prototype.split('\n')`: split on newline characters,
keeping empty segments.  The result is always non-empty. -/
def splitNl : Str → List Str
  | [] => [[]]
  | c :: rest =>
    match splitNl rest with
    | [] => [[]]
    | l :: ls => if c = '\n' then [] :: l :: ls else (c :: l) :: ls

/-- Merging the split of a first half with the split of a second half:
the last segment of the first half joins the first segment of the second. -/
def glueSplit : List Str → List Str → List Str
  | [], ys => ys
  | [x], [] => [x]
  | [x], y :: ys => (x ++ y) :: ys
  | x :: x2 :: xs, ys => x :: glueSplit (x2 :: xs) ys

/-- First-match lookup in an association list (JavaScript `Map.get`; map
keys are unique, so first match is the match). -/
def lookupKey {K V : Type} [DecidableEq K] (k : K) :
    List (K × V) → Option V
  | [] => none
  | (k1, v) :: rest => if k1 = k then some v else lookupKey k rest

/-- JavaScript `Map.set`: replace the entry in place, or append it. -/
def setKey {K V : Type} [DecidableEq K] (k : K) (v : V) :
    List (K × V) → List (K × V)
  | [] => [(k, v)]
  | (k1, v1) :: rest =>
    if k1 = k then (k, v) :: rest else (k1, v1) :: setKey k v rest

/-- JavaScript `Map.delete`: remove the entry with the given key. -/
def removeKey {K V : Type} [DecidableEq K] (k : K) :
    List (K × V) → List (K × V)
  | [] => []
  | (k1, v) :: rest =>
    if k1 = k then rest else (k1, v) :: removeKey k rest

/-! ## JSON values and the provider text extractors (src/lib/chat-export.ts) -/

/-- Parsed JSON values, as produced by `JSON.parse`. -/
inductive Json where
  | null
  | bool (b : Bool)
  | num (n : Int)
  | str (s : Str)
  | arr (elems : List Json)
  | obj (fields : List (Str × Json))

/-- JavaScript optional chaining `x?.field` on a parsed JSON value. -/
def Json.getField : Json → Str → Option Json
  | .obj fs, k => lookupKey k fs
  | _, _ => none

/-- JavaScript optional chaining `x?.[i]` on a parsed JSON value. -/
def Json.getIdx : Json → Nat → Option Json
  | .arr xs, i => xs.get? i
  | _, _ => none

/-- The Google extractor: `data.candidates?.[0]?.content?.parts?.[0]?.text
|| ''`.  A missing step of the chain, or a non-string payload, yields the
empty string, exactly like the `|| ''` fallback. -/
def extractGoogleText (j : Json) : Str :=
  match (((((j.getField (("candidates").toList)).bind
      (fun a => a.getIdx 0)).bind
      (fun a => a.getField (("content").toList))).bind
      (fun a => a.getField (("parts").toList))).bind
      (fun a => a.getIdx 0)).bind
      (fun a => a.getField (("text").toList)) with
  | some (.str s) => s
  | _ => []

/-- The OpenAI/Groq extractor: `data.choices?.[0]?.delta?.content || ''`. -/
def extractOpenAIText (j : Json) : Str :=
  match (((j.getField (("choices").toList)).bind
      (fun a => a.getIdx 0)).bind
      (fun a => a.getField (("delta").toList))).bind
      (fun a => a.getField (("content").toList)) with
  | some (.str s) => s
  | _ => []

/-- A Google streaming chunk whose only content is the text `t`, the
canonical wire shape the extractor is specified against. -/
def googleChunkJson (t : Str) : Json :=
  Json.obj [((("candidates").toList),
    Json.arr [Json.obj [((("content").toList),
      Json.obj [((("parts").toList),
        Json.arr [Json.obj [((("text").toList), Json.str t)]])])]])]

/-- An OpenAI streaming chunk whose only content is the delta text `t`. -/
def openaiChunkJson (t : Str) : Json :=
  Json.obj [((("choices").toList),
    Json.arr [Json.obj [((("delta").toList),
      Json.obj [((("content").toList), Json.str t)])]])]

/-! ## Streaming Decoder (streamSSEResponse)

The decoder consumes chunks of text, carries over the trailing incomplete
line in a buffer, and for each complete line starting with `data: ` parses
the JSON payload and extracts a text delta.  `JSON.parse` composed with the
provider extractor is modelled as a parameter
`extract : Str → Option Str`: `none` models a `JSON.parse` failure
(silently skipped), `some t` the extracted text, which is emitted only when
non-empty (the source's `if (text)` check). -/

/-- One complete line of the SSE stream, as handled inside the read loop of
`streamSSEResponse` (and identically by its final-buffer flush): lines not
starting with `data: ` are ignored; otherwise the rest of the line is
trimmed, the `[DONE]` sentinel and empty payloads are skipped, and the
extracted text is emitted when non-empty.  Returns the list (empty or
singleton) of emitted deltas. -/
def handleLine (extract : Str → Option Str) (line : Str) : List Str :=
  if line.take 6 = ("data: ").toList then
    let jsonStr := trimChars (line.drop 6)
    if jsonStr ≠ [] ∧ jsonStr ≠ ("[DONE]").toList then
      match extract jsonStr with
      | some t => if t ≠ [] then [t] else []
      | none => []
    else []
  else []

/-- Deltas emitted by a list of complete lines, in order. -/
def processLines (extract : Str → Option Str) : List Str → List Str
  | [] => []
  | l :: ls => handleLine extract l ++ processLines extract ls

/-- Loop state of `streamSSEResponse`: the carry-over buffer, the
accumulated full text, and the list of `onChunk` calls made so far. -/
structure SSEState where
  buf : Str
  fullText : Str
  calls : List Str
  deriving DecidableEq

/-- One iteration of the read loop of `streamSSEResponse`: append the new
chunk to the buffer, split on newlines, hold back the trailing fragment
(`lines.pop() || ''`), and process each complete line. -/
def sseStep (extract : Str → Option Str) (st : SSEState) (chunk : Str) :
    SSEState :=
  { buf := (splitNl (st.buf ++ chunk)).getLastD [],
    fullText := st.fullText ++
      concatAll (processLines extract (splitNl (st.buf ++ chunk)).dropLast),
    calls := st.calls ++
      processLines extract (splitNl (st.buf ++ chunk)).dropLast }

/-- Result of `streamSSEResponse`: the returned full text and the sequence
of `onChunk` calls. -/
structure SSEResult where
  fullText : Str
  calls : List Str
  deriving DecidableEq

/-- The flush after the read loop of `streamSSEResponse` ends: the
remaining buffer content is given one final parse attempt (its guard and
body coincide with the per-line handling). -/
def sseFinish (extract : Str → Option Str) (st : SSEState) : SSEResult :=
  { fullText := st.fullText ++ concatAll (handleLine extract st.buf),
    calls := st.calls ++ handleLine extract st.buf }

/-- `streamSSEResponse`, as a whole: fold the read loop over the chunks of
the byte stream, then flush the remaining buffer. -/
def streamSSE (extract : Str → Option Str) (chunks : List Str) : SSEResult :=
  sseFinish extract (chunks.foldl (sseStep extract) ⟨[], [], []⟩)

/-- Modelled from the spec: the extractor of the spec's scenario, reading
the top-level `text` field of the parsed JSON (no such extractor exists in
the source, whose extractors read the Google/OpenAI shapes).  It accepts
exactly the strings of the form `{"text":"<t>"}` with no quote inside `t`,
returning `t`, and fails (`JSON.parse` failure) on anything else. -/
def textFieldExtract (s : Str) : Option Str :=
  if s.take 9 = ("\x7b\"text\":\"").toList ∧
      2 ≤ (s.drop 9).length ∧
      (s.drop 9).drop ((s.drop 9).length - 2) = ("\"\x7d").toList ∧
      '"' ∉ (s.drop 9).take ((s.drop 9).length - 2) then
    some ((s.drop 9).take ((s.drop 9).length - 2))
  else none

/-! ## Stdio inbound demultiplexer (mcp.ts, startStdioServer stdout handler)

On each `mcp-stdout` event the handler runs
`serverState.buffer += data + '\n'`, splits the buffer on `'\n'`, keeps the
popped last segment as the new buffer, and parses each remaining non-blank
line as JSON (parse failures are dropped as non-protocol output). -/

/-- The buffer/split step of the stdout handler: new buffer and the list of
complete lines handed to the parse loop. -/
def stdioDemuxStep (buf data : Str) : Str × List Str :=
  ((splitNl (buf ++ data ++ ['\n'])).getLastD [],
   (splitNl (buf ++ data ++ ['\n'])).dropLast)

/-- The full stdout handler for one event, with `JSON.parse` (returning a
JSON-RPC response or failing) as a parameter: blank lines are skipped and
unparseable lines are dropped. -/
def stdioHandleChunk {R : Type} (parse : Str → Option R) (buf data : Str) :
    Str × List R :=
  ((stdioDemuxStep buf data).1,
   (stdioDemuxStep buf data).2.filterMap
     (fun l => if trimChars l = [] then none else parse l))

/-! ## Request Correlator (mcp.ts: sendStdioRequest / sendHttpRequest
pending-request maps, handleResponse, and the per-request timeout)

A pending entry exists in `pendingRequests` exactly while its promise is
unsettled: every path that settles the promise (response arrival, timeout
firing, write failure) deletes the entry first, and a JavaScript promise
settles at most once, so a reject on an id with no entry has no caller
effect.  The model therefore delivers an outcome to the caller exactly when
the entry was present.  Entries are keyed by id and carry the request's
method name (used in the timeout message). -/

structure JsonRpcError where
  code : Int
  message : Str
  deriving DecidableEq

structure JsonRpcResponse where
  id : Nat
  result : Option Json
  error : Option JsonRpcError

/-- How a pending request's promise is settled. -/
inductive CorrOutcome where
  | resolved (result : Option Json)
  | rejected (message : Str)

/-- The timeout rejection message `Request timeout for ${method}`. -/
def timeoutMessage (method : Str) : Str :=
  ("Request timeout for ").toList ++ method

/-- The shared response handler `handleResponse`: look up the pending entry
by the response id; if absent, log and discard; if present, delete the
entry and then reject with `new Error(response.error.message)` when an
`error` field is present, else resolve with `response.result`. -/
def handleResponse (pending : List (Nat × Str)) (r : JsonRpcResponse) :
    List (Nat × Str) × Option (Nat × CorrOutcome) :=
  match lookupKey r.id pending with
  | none => (pending, none)
  | some _ =>
    (removeKey r.id pending,
     some (r.id,
       match r.error with
       | some e => CorrOutcome.rejected e.message
       | none => CorrOutcome.resolved r.result))

/-- The per-request timeout callback: delete the pending entry and reject
with the timeout error.  When the entry is already gone the promise is
already settled, so nothing reaches the caller. -/
def timeoutFire (pending : List (Nat × Str)) (id : Nat) :
    List (Nat × Str) × Option (Nat × CorrOutcome) :=
  match lookupKey id pending with
  | none => (pending, none)
  | some m =>
    (removeKey id pending, some (id, CorrOutcome.rejected (timeoutMessage m)))

/-- Terminal events that can reach a session's correlator. -/
inductive CorrEvent where
  | response (r : JsonRpcResponse)
  | timeout (id : Nat)

def corrStep (pending : List (Nat × Str)) :
    CorrEvent → List (Nat × Str) × Option (Nat × CorrOutcome)
  | .response r => handleResponse pending r
  | .timeout id => timeoutFire pending id

/-- Run a sequence of correlator events, collecting the outcomes delivered
to callers. -/
def corrRun (pending : List (Nat × Str)) :
    List CorrEvent → List (Nat × Str) × List (Nat × CorrOutcome)
  | [] => (pending, [])
  | e :: es =>
    let st := corrStep pending e
    let rest := corrRun st.1 es
    (rest.1, st.2.toList ++ rest.2)

/-! ## Data model: tools, results, server state (src/types, src/store) -/

structure MCPTool where
  name : Str
  description : Str
  inputSchema : Json

/-- One item of a tool-call result's `content` array. -/
structure ContentItem where
  type : Str
  text : Option Str

structure MCPToolCallResult where
  content : List ContentItem
  isError : Bool

inductive ServerStatus where
  | disconnected
  | connecting
  | connected
  | error
  deriving DecidableEq

/-- Runtime state of a server in the MCP store (`MCPServerState` less the
redundant `id` field). -/
structure ServerRuntimeState where
  status : ServerStatus
  tools : List MCPTool
  error : Option Str

/-- A partial update passed to `setServerState`; a `some` field is a key
present in the update object (possibly explicitly `undefined`, hence the
inner `Option` for `error`). -/
structure ServerStateUpdate where
  status : Option ServerStatus
  tools : Option (List MCPTool)
  error : Option (Option Str)

def applyUpdate (cur : ServerRuntimeState) (u : ServerStateUpdate) :
    ServerRuntimeState :=
  { status := u.status.getD cur.status,
    tools := u.tools.getD cur.tools,
    error := u.error.getD cur.error }

/-- The store's `setServerState`: merge the update into the current state,
defaulting to a fresh disconnected state when the id is unknown. -/
def setServerState (states : List (Str × ServerRuntimeState)) (id : Str)
    (u : ServerStateUpdate) : List (Str × ServerRuntimeState) :=
  setKey id
    (applyUpdate ((lookupKey id states).getD ⟨.disconnected, [], none⟩) u)
    states

/-- The store's `clearServerState`. -/
def clearServerState (states : List (Str × ServerRuntimeState)) (id : Str) :
    List (Str × ServerRuntimeState) :=
  removeKey id states

def connectingUpdate : ServerStateUpdate :=
  ⟨some .connecting, none, some none⟩

def connectedUpdate (tools : List MCPTool) : ServerStateUpdate :=
  ⟨some .connected, some tools, none⟩

def errorUpdate (msg : Str) : ServerStateUpdate :=
  ⟨some .error, none, some (some msg)⟩

/-! ## Server configurations and the registry (mcp.ts lifecycle) -/

inductive TransportKind where
  | stdio
  | http
  deriving DecidableEq

structure StdioConfig where
  id : Str
  name : Str
  enabled : Bool
  command : Str
  args : List Str

structure HttpConfig where
  id : Str
  name : Str
  enabled : Bool
  url : Str

inductive MCPServerConfig where
  | stdio (cfg : StdioConfig)
  | http (cfg : HttpConfig)

def MCPServerConfig.id : MCPServerConfig → Str
  | .stdio c => c.id
  | .http c => c.id

def MCPServerConfig.enabled : MCPServerConfig → Bool
  | .stdio c => c.enabled
  | .http c => c.enabled

/-- A live per-server session (`ServerState` in the source): transport tag,
monotonic request-id counter, pending-request map, stdio line buffer. -/
structure SessionState where
  transport : TransportKind
  requestId : Nat
  pending : List (Nat × Str)
  buffer : Str
  deriving DecidableEq

def freshSession (t : TransportKind) : SessionState :=
  ⟨t, 0, [], []⟩

/-- The module-level mutable state: the `activeServers` registry plus the
MCP store's `serverStates`. -/
structure SysState where
  active : List (Str × SessionState)
  states : List (Str × ServerRuntimeState)

/-- Outcomes of the effectful steps of a stdio server start: `some msg`
models the awaited call throwing with that message. -/
structure StdioStartEnv where
  spawn : Option Str
  initCall : Option Str
  toolsCall : Except Str (Option (Option (List MCPTool)))

/-- Outcomes of the effectful steps of an HTTP server start. -/
structure HttpStartEnv where
  connectSSE : Option Str
  initCall : Option Str
  toolsCall : Except Str (Option (Option (List MCPTool)))

/-- The result handling of `listToolsStdio` / `listToolsHttp`:
`result?.tools || []`.  The outer `Option` is a null/undefined `result`,
the inner one a missing (or null) `tools` field. -/
def toolsOfPayload : Option (Option (List MCPTool)) → List MCPTool
  | some (some ts) => ts
  | _ => []

/-- The catch block of `startStdioServer` / `startHttpServer`: record the
error in the store, release listeners, and drop the registry entry. -/
def startFail (s : SysState) (id : Str) (msg : Str) : SysState :=
  { states := setServerState s.states id (errorUpdate msg),
    active := removeKey id s.active }

/-- `startStdioServer`: return unchanged when the id is already active;
otherwise mark connecting, register the session, then spawn, initialize and
list tools in order, reaching `connected` with the returned tools or the
catch block on the first failure.  The second component is the rethrown
error, if any. -/
def startStdioServer (env : StdioStartEnv) (s : SysState)
    (cfg : StdioConfig) : SysState × Option Str :=
  if (lookupKey cfg.id s.active).isSome then (s, none)
  else
    let s2 : SysState :=
      { states := setServerState s.states cfg.id connectingUpdate,
        active := setKey cfg.id (freshSession .stdio) s.active }
    match env.spawn with
    | some msg => (startFail s2 cfg.id msg, some msg)
    | none =>
      match env.initCall with
      | some msg => (startFail s2 cfg.id msg, some msg)
      | none =>
        match env.toolsCall with
        | .error msg => (startFail s2 cfg.id msg, some msg)
        | .ok payload =>
          let stF := setServerState s2.states cfg.id
            (connectedUpdate (toolsOfPayload payload))
          ({ s2 with states := stF }, none)

/-- `startHttpServer`: same shape over the SSE connect, initialize and
tools/list steps. -/
def startHttpServer (env : HttpStartEnv) (s : SysState)
    (cfg : HttpConfig) : SysState × Option Str :=
  if (lookupKey cfg.id s.active).isSome then (s, none)
  else
    let s2 : SysState :=
      { states := setServerState s.states cfg.id connectingUpdate,
        active := setKey cfg.id (freshSession .http) s.active }
    match env.connectSSE with
    | some msg => (startFail s2 cfg.id msg, some msg)
    | none =>
      match env.initCall with
      | some msg => (startFail s2 cfg.id msg, some msg)
      | none =>
        match env.toolsCall with
        | .error msg => (startFail s2 cfg.id msg, some msg)
        | .ok payload =>
          let stF := setServerState s2.states cfg.id
            (connectedUpdate (toolsOfPayload payload))
          ({ s2 with states := stF }, none)

/-- `startMCPServer`: dispatch on the configured transport variant. -/
def startMCPServer (envS : StdioStartEnv) (envH : HttpStartEnv)
    (s : SysState) : MCPServerConfig → SysState × Option Str
  | .stdio c => startStdioServer envS s c
  | .http c => startHttpServer envH s c

/-- Outcome of the `kill_mcp_server` invoke during a stdio stop. -/
structure StopEnv where
  kill : Option Str

/-- `stopStdioServer`: release listeners, kill the process, drop the
registry entry and clear the store state; if the kill throws, the entry
survives and the store records the error. -/
def stopStdioServer (env : StopEnv) (s : SysState) (id : Str) : SysState :=
  match env.kill with
  | none =>
    { active := removeKey id s.active,
      states := clearServerState s.states id }
  | some msg =>
    { s with states := setServerState s.states id (errorUpdate msg) }

/-- `stopHttpServer`: close the event source, drop the registry entry and
clear the store state. -/
def stopHttpServer (s : SysState) (id : Str) : SysState :=
  { active := removeKey id s.active,
    states := clearServerState s.states id }

/-- `stopMCPServer`: a warning-only no-op when the id has no active
session, else dispatch on the session's transport. -/
def stopMCPServer (env : StopEnv) (s : SysState) (id : Str) : SysState :=
  match lookupKey id s.active with
  | none => s
  | some sess =>
    match sess.transport with
    | .stdio => stopStdioServer env s id
    | .http => stopHttpServer s id

/-- `findToolServer`: scan the configured servers in order; skip disabled
ones; return the first enabled, connected server whose tool list contains
the name. -/
def findToolServer (states : List (Str × ServerRuntimeState))
    (toolName : Str) : List MCPServerConfig → Option Str
  | [] => none
  | sv :: rest =>
    if sv.enabled then
      match lookupKey sv.id states with
      | some st =>
        if st.status = ServerStatus.connected then
          if st.tools.any (fun t => t.name = toolName) then some sv.id
          else findToolServer states toolName rest
        else findToolServer states toolName rest
      | none => findToolServer states toolName rest
    else findToolServer states toolName rest

/-! ## Network-call traces and cancellation (useChatActions in the source)

One user turn owns one `AbortController`; its signal is passed to every
LLM request (where an aborted signal makes `fetch` reject with an
`AbortError` before any bytes are sent) but to nothing else.  The model
counts outbound network events and lets the signal become aborted after a
given number of them; every emitted event records whether the signal was
already aborted when it was issued. -/

inductive NetEvent where
  | llmRequest (iteration : Nat) (signalAborted : Bool)
  | toolRequest (serverId : Str) (toolName : Str) (signalAborted : Bool)
  deriving DecidableEq

/-- When the user cancels: the signal is aborted once `abortAfter` network
events have been issued (`none` = never). -/
structure AbortEnv where
  abortAfter : Option Nat

def signalAt (a : AbortEnv) (count : Nat) : Bool :=
  match a.abortAfter with
  | none => false
  | some k => decide (k ≤ count)

/-- The result `callTool` synthesizes when the server has no active
session: `Error: Server ${serverId} not running`, flagged as an error. -/
def serverNotRunningResult (serverId : Str) : MCPToolCallResult :=
  { content := [⟨("text").toList,
      some ((("Error: Server ").toList) ++ serverId ++
        ((" not running").toList))⟩],
    isError := true }

/-- The result `callTool` synthesizes when the transport send rejects:
`Error: ${errorMessage}`, flagged as an error. -/
def sendFailedResult (msg : Str) : MCPToolCallResult :=
  { content := [⟨("text").toList, some ((("Error: ").toList) ++ msg)⟩],
    isError := true }

/-- `callTool`: fail immediately (no request sent) when the server id has
no active session; otherwise perform one `tools/call` round-trip through
`sendStdioRequest`/`sendHttpRequest` — which receives no cancellation
signal — and convert a rejection into an error-flagged result.  `oracle`
gives the round-trip's outcome by network-event index; the returned number
is the updated event count. -/
def callTool (a : AbortEnv) (oracle : Nat → Except Str MCPToolCallResult)
    (active : List (Str × SessionState)) (count : Nat)
    (serverId toolName : Str) (args : Json) :
    MCPToolCallResult × List NetEvent × Nat :=
  match lookupKey serverId active with
  | none => (serverNotRunningResult serverId, [], count)
  | some _ =>
    match oracle count with
    | .ok result =>
      (result, [NetEvent.toolRequest serverId toolName (signalAt a count)],
       count + 1)
    | .error msg =>
      (sendFailedResult msg,
       [NetEvent.toolRequest serverId toolName (signalAt a count)],
       count + 1)

structure ToolCall where
  id : Str
  name : Str
  arguments : Json

/-- A `{ id, name, result }` entry of the list `executeToolCalls`
returns. -/
structure ToolResultEntry where
  id : Str
  name : Str
  result : Str

inductive ToolCallStatus where
  | pending
  | executing
  | success
  | error
  deriving DecidableEq

/-- A recorded `updateToolCallStatus` call: tool-call id, new status,
optional result text. -/
abbrev StatusUpdate := Str × ToolCallStatus × Option Str

/-- Serialization of a content item by `JSON.stringify` (string escaping
inside the payload is not modelled; no claim depends on it). -/
def stringifyItem (c : ContentItem) : Str :=
  (("\x7b\"type\":\"").toList) ++ c.type ++
    (match c.text with
     | some t => (("\",\"text\":\"").toList) ++ t ++ (("\"\x7d").toList)
     | none => (("\"\x7d").toList))

/-- `Array.prototype.join('\n')`. -/
def joinWithNl : List Str → Str
  | [] => []
  | [x] => x
  | x :: y :: rest => x ++ '\n' :: joinWithNl (y :: rest)

/-- `result.content.map(c => c.text || JSON.stringify(c)).join('\n')`. -/
def renderResult (r : MCPToolCallResult) : Str :=
  joinWithNl (r.content.map (fun c =>
    match c.text with
    | some t => if t ≠ [] then t else stringifyItem c
    | none => stringifyItem c))

/-- The error text synthesized for a tool name no connected server
offers. -/
def notFoundMsg (name : Str) : Str :=
  (("Error: Tool \"").toList) ++ name ++
    (("\" not found in any connected MCP server").toList)

/-- `executeToolCalls`: for each tool call in order, mark it executing,
resolve the owning server via `findToolServer`; when none is found,
synthesize the error entry with no network activity; otherwise invoke
`callTool` and record success or error from the result's `isError` flag.
Returns the result entries, the status updates, the network trace, and the
updated event count. -/
def executeToolCalls (a : AbortEnv)
    (oracle : Nat → Except Str MCPToolCallResult)
    (servers : List MCPServerConfig)
    (states : List (Str × ServerRuntimeState))
    (active : List (Str × SessionState)) (count : Nat) :
    List ToolCall →
      List ToolResultEntry × List StatusUpdate × List NetEvent × Nat
  | [] => ([], [], [], count)
  | tc :: rest =>
    match findToolServer states tc.name servers with
    | none =>
      let r := executeToolCalls a oracle servers states active count rest
      (⟨tc.id, tc.name, notFoundMsg tc.name⟩ :: r.1,
       (tc.id, ToolCallStatus.executing, none) ::
         (tc.id, ToolCallStatus.error, some (notFoundMsg tc.name)) :: r.2.1,
       r.2.2.1, r.2.2.2)
    | some sid =>
      let c := callTool a oracle active count sid tc.name tc.arguments
      let resultText := renderResult c.1
      let r := executeToolCalls a oracle servers states active c.2.2 rest
      (⟨tc.id, tc.name, resultText⟩ :: r.1,
       (tc.id, ToolCallStatus.executing, none) ::
         (tc.id,
          if c.1.isError then ToolCallStatus.error else ToolCallStatus.success,
          some resultText) :: r.2.1,
       c.2.1 ++ r.2.2.1, r.2.2.2)

/-! ## The tool-call orchestration loop (handleChatCompletion) -/

/-- What `sendChatRequestWithTools` resolves with. -/
structure LLMResponse where
  content : Str
  toolCalls : List ToolCall

/-- Environment of one user turn: registry contents, the model's response
per iteration, the tool round-trip outcomes, and the cancellation point. -/
structure ChatEnv where
  servers : List MCPServerConfig
  states : List (Str × ServerRuntimeState)
  active : List (Str × SessionState)
  llm : Nat → Except Str LLMResponse
  oracle : Nat → Except Str MCPToolCallResult
  abort : AbortEnv

/-- How `sendMessage`'s catch classifies the end of the turn: an
`AbortError` (detected by `isAbortError`, i.e. `err.name === 'AbortError'`)
is the cancelled path, which clears streaming without recording an error;
everything else is the generic error path. -/
inductive TurnOutcome where
  | completed
  | aborted
  | failed (message : Str)
  deriving DecidableEq

/-- The loop bound `const maxIterations = 10` of
`handleChatCompletion`. -/
def maxIterations : Nat := 10

/-- The `while (continueLoop && iterations < maxIterations)` loop of
`handleChatCompletion`.  Each iteration sends one LLM request carrying the
turn's abort signal (an already-aborted signal makes the request reject
with `AbortError` before issuing a network call); when the response carries
tool calls they are executed via `executeToolCalls` — with no cancellation
check — and the loop continues, otherwise it stops.  The structural `fuel`
argument (always at least `maxIterations - iterations`) only makes the
recursion structural; the loop exits through the source's
`iterations < maxIterations` test. -/
def chatLoop (env : ChatEnv) : Nat → Nat → Nat → TurnOutcome × List NetEvent
  | 0, _, _ => (TurnOutcome.completed, [])
  | fuel + 1, iterations, count =>
    if iterations < maxIterations then
      if signalAt env.abort count then (TurnOutcome.aborted, [])
      else
        match env.llm iterations with
        | .error msg =>
          (TurnOutcome.failed msg,
           [NetEvent.llmRequest iterations (signalAt env.abort count)])
        | .ok resp =>
          match resp.toolCalls with
          | [] =>
            (TurnOutcome.completed,
             [NetEvent.llmRequest iterations (signalAt env.abort count)])
          | tc :: tcs =>
            let r := executeToolCalls env.abort env.oracle env.servers
              env.states env.active (count + 1) (tc :: tcs)
            let next := chatLoop env fuel (iterations + 1) r.2.2.2
            (next.1,
             NetEvent.llmRequest iterations (signalAt env.abort count) ::
               (r.2.2.1 ++ next.2))
    else (TurnOutcome.completed, [])

/-- One whole turn: the loop from iteration 0, event count 0. -/
def chatTurn (env : ChatEnv) : TurnOutcome × List NetEvent :=
  chatLoop env maxIterations 0 0

/-- Number of LLM requests in a network trace. -/
def llmCount : List NetEvent → Nat
  | [] => 0
  | NetEvent.llmRequest _ _ :: rest => llmCount rest + 1
  | NetEvent.toolRequest _ _ _ :: rest => llmCount rest

/-- A concrete turn used to exhibit a tool network call issued after the
cancellation signal is set: one connected server `s1` offering tool `t`,
a first model response requesting `t` twice, and a cancellation arriving
after the second network event. -/
def cancelDemoEnv : ChatEnv :=
  { servers := [MCPServerConfig.stdio
      ⟨("s1").toList, ("srv").toList, true, ("cmd").toList, []⟩],
    states := [(("s1").toList,
      ⟨ServerStatus.connected,
       [⟨("t").toList, [], Json.obj []⟩], none⟩)],
    active := [(("s1").toList, freshSession .stdio)],
    llm := fun _ => .ok ⟨[],
      [⟨("c1").toList, ("t").toList, Json.null⟩,
       ⟨("c2").toList, ("t").toList, Json.null⟩]⟩,
    oracle := fun _ => .ok ⟨[⟨("text").toList, some (("ok").toList)⟩], false⟩,
    abort := ⟨some 2⟩ }

/-- The same turn with cancellation never arriving: the model requests
tools on every iteration, exercising the loop bound. -/
def loopDemoEnv : ChatEnv :=
  { cancelDemoEnv with abort := ⟨none⟩ }

/-! ## Theorems: string splitting -/

theorem concatAll_append (a b : List Str) :
    concatAll (a ++ b) = concatAll a ++ concatAll b := by
  induction a with
  | nil => simp [concatAll]
  | cons x xs ih => simp [concatAll, ih]

theorem splitNl_ne_nil (s : Str) : splitNl s ≠ [] := by
  cases s with
  | nil => simp [splitNl]
  | cons c rest =>
    simp only [splitNl]
    cases h : splitNl rest with
    | nil => simp
    | cons l ls =>
      by_cases hc : c = '\n' <;> simp [hc]

theorem glueSplit_ne_nil (xs ys : List Str) (hx : xs ≠ []) :
    glueSplit xs ys ≠ [] := by
  match xs, ys with
  | [], ys => exact absurd rfl hx
  | [x], [] => simp [glueSplit]
  | [x], y :: ys => simp [glueSplit]
  | x :: x2 :: xs, ys => simp [glueSplit]

theorem splitNl_append (a b : Str) :
    splitNl (a ++ b) = glueSplit (splitNl a) (splitNl b) := by
  induction a with
  | nil =>
    simp only [List.nil_append, splitNl]
    cases h : splitNl b with
    | nil => exact absurd h (splitNl_ne_nil b)
    | cons l ls => simp [glueSplit]
  | cons c rest ih =>
    simp only [List.cons_append, splitNl, List.append_eq]
    rw [ih]
    cases h : splitNl rest with
    | nil => exact absurd h (splitNl_ne_nil rest)
    | cons l ls =>
      cases ls with
      | nil =>
        cases hb : splitNl b with
        | nil => exact absurd hb (splitNl_ne_nil b)
        | cons m ms =>
          by_cases hc : c = '\n' <;> simp [glueSplit, hc]
      | cons l2 ls2 =>
        by_cases hc : c = '\n' <;> simp [glueSplit, hc]

theorem splitNl_of_no_nl (s : Str) (h : '\n' ∉ s) : splitNl s = [s] := by
  induction s with
  | nil => simp [splitNl]
  | cons c rest ih =>
    simp only [List.mem_cons, not_or] at h
    have hc : ¬ c = '\n' := fun he => h.1 he.symm
    simp only [splitNl, ih h.2]
    simp [hc]

theorem splitNl_no_nl (s : Str) : ∀ l ∈ splitNl s, '\n' ∉ l := by
  induction s with
  | nil => simp [splitNl]
  | cons c rest ih =>
    simp only [splitNl]
    cases h : splitNl rest with
    | nil => simp
    | cons l ls =>
      have ihl := h ▸ ih
      by_cases hc : c = '\n'
      · simp only [if_pos hc]
        intro x hx
        rcases List.mem_cons.mp hx with rfl | hx2
        · simp
        · exact ihl x hx2
      · simp only [if_neg hc]
        intro x hx
        rcases List.mem_cons.mp hx with rfl | hx2
        · have hl : '\n' ∉ l := ihl l (List.mem_cons_self l ls)
          intro hmem
          rcases List.mem_cons.mp hmem with he | hm
          · exact hc he.symm
          · exact hl hm
        · exact ihl x (List.mem_cons_of_mem l hx2)

theorem glueSplit_getLastD (xs ys : List Str) (hx : xs ≠ []) :
    (glueSplit xs ys).getLastD [] =
      (glueSplit [xs.getLastD []] ys).getLastD [] := by
  induction xs with
  | nil => exact absurd rfl hx
  | cons x xs ih =>
    cases xs with
    | nil => rfl
    | cons x2 xs2 =>
      have hne : glueSplit (x2 :: xs2) ys ≠ [] := glueSplit_ne_nil _ _ (by simp)
      calc (glueSplit (x :: x2 :: xs2) ys).getLastD []
          = (x :: glueSplit (x2 :: xs2) ys).getLastD [] := rfl
        _ = (glueSplit (x2 :: xs2) ys).getLastD [] := by
            cases h : glueSplit (x2 :: xs2) ys with
            | nil => exact absurd h hne
            | cons m ms => simp [List.getLastD_cons]
        _ = (glueSplit [(x2 :: xs2).getLastD []] ys).getLastD [] :=
            ih (by simp)
        _ = (glueSplit [(x :: x2 :: xs2).getLastD []] ys).getLastD [] := by
            simp [List.getLastD_cons]

theorem glueSplit_dropLast (xs ys : List Str) (hx : xs ≠ []) :
    (glueSplit xs ys).dropLast =
      xs.dropLast ++ (glueSplit [xs.getLastD []] ys).dropLast := by
  induction xs with
  | nil => exact absurd rfl hx
  | cons x xs ih =>
    cases xs with
    | nil => rfl
    | cons x2 xs2 =>
      have hne : glueSplit (x2 :: xs2) ys ≠ [] := glueSplit_ne_nil _ _ (by simp)
      calc (glueSplit (x :: x2 :: xs2) ys).dropLast
          = (x :: glueSplit (x2 :: xs2) ys).dropLast := rfl
        _ = x :: (glueSplit (x2 :: xs2) ys).dropLast := by
            cases h : glueSplit (x2 :: xs2) ys with
            | nil => exact absurd h hne
            | cons m ms => simp
        _ = x :: ((x2 :: xs2).dropLast ++
              (glueSplit [(x2 :: xs2).getLastD []] ys).dropLast) := by
            rw [ih (by simp)]
        _ = (x :: x2 :: xs2).dropLast ++
              (glueSplit [(x :: x2 :: xs2).getLastD []] ys).dropLast := by
            simp [List.getLastD_cons]

theorem splitNl_append_nl (s : Str) :
    splitNl (s ++ ['\n']) = splitNl s ++ [[]] := by
  rw [splitNl_append]
  have h : splitNl ['\n'] = [[], []] := by rfl
  rw [h]
  induction s with
  | nil => rfl
  | cons c rest ih =>
    simp only [splitNl]
    cases h2 : splitNl rest with
    | nil => exact absurd h2 (splitNl_ne_nil rest)
    | cons l ls =>
      rw [h2] at ih
      by_cases hc : c = '\n'
      · simp only [if_pos hc]
        cases ls with
        | nil => simp [glueSplit] at ih ⊢
        | cons l2 ls2 => simp [glueSplit] at ih ⊢; exact ih
      · simp only [if_neg hc]
        cases ls with
        | nil => simp [glueSplit] at ih ⊢
        | cons l2 ls2 => simp [glueSplit] at ih ⊢; exact ih

theorem getLastD_mem {α : Type} (xs : List α) (d : α) (h : xs ≠ []) :
    xs.getLastD d ∈ xs := by
  induction xs generalizing d with
  | nil => exact absurd rfl h
  | cons x xs ih =>
    cases xs with
    | nil => simp
    | cons y ys =>
      rw [List.getLastD_cons]
      exact List.mem_cons_of_mem x (ih x (by simp))

theorem dropLast_append_getLastD {α : Type} (xs : List α) (d : α)
    (h : xs ≠ []) : xs.dropLast ++ [xs.getLastD d] = xs := by
  induction xs generalizing d with
  | nil => exact absurd rfl h
  | cons x xs ih =>
    cases xs with
    | nil => simp
    | cons y ys =>
      rw [List.getLastD_cons]
      simp only [List.dropLast_cons₂, List.cons_append]
      rw [ih x (by simp)]

/-! ## Theorems: the streaming decoder -/

theorem processLines_append (e : Str → Option Str) (a b : List Str) :
    processLines e (a ++ b) = processLines e a ++ processLines e b := by
  induction a with
  | nil => simp [processLines]
  | cons l ls ih => simp [processLines, ih]

theorem processLines_single (e : Str → Option Str) (l : Str) :
    processLines e [l] = handleLine e l := by
  simp [processLines]

theorem sseStep_append (e : Str → Option Str) (st : SSEState) (c1 c2 : Str) :
    sseStep e (sseStep e st c1) c2 = sseStep e st (c1 ++ c2) := by
  have hA : splitNl (st.buf ++ c1) ≠ [] := splitNl_ne_nil _
  have hLastNoNl : '\n' ∉ (splitNl (st.buf ++ c1)).getLastD [] :=
    splitNl_no_nl _ _ (getLastD_mem _ _ hA)
  have hsplit2 :
      splitNl ((splitNl (st.buf ++ c1)).getLastD [] ++ c2) =
        glueSplit [(splitNl (st.buf ++ c1)).getLastD []] (splitNl c2) := by
    rw [splitNl_append, splitNl_of_no_nl _ hLastNoNl]
  have hsplit3 : splitNl (st.buf ++ (c1 ++ c2)) =
      glueSplit (splitNl (st.buf ++ c1)) (splitNl c2) := by
    rw [← List.append_assoc, splitNl_append]
  have hdrop := glueSplit_dropLast (splitNl (st.buf ++ c1)) (splitNl c2) hA
  have hlast := glueSplit_getLastD (splitNl (st.buf ++ c1)) (splitNl c2) hA
  simp only [sseStep, hsplit2, hsplit3, SSEState.mk.injEq]
  refine ⟨hlast.symm, ?_, ?_⟩
  · rw [hdrop, processLines_append, concatAll_append, List.append_assoc]
  · rw [hdrop, processLines_append, List.append_assoc]

theorem sseStep_nil (e : Str → Option Str) (st : SSEState)
    (h : '\n' ∉ st.buf) : sseStep e st [] = st := by
  obtain ⟨b, f, c⟩ := st
  simp only [SSEState.buf] at h
  simp [sseStep, splitNl_of_no_nl b h, processLines, concatAll]

theorem sseStep_buf_no_nl (e : Str → Option Str) (st : SSEState)
    (c : Str) : '\n' ∉ (sseStep e st c).buf :=
  splitNl_no_nl _ _ (getLastD_mem _ _ (splitNl_ne_nil _))

theorem foldl_sseStep (e : Str → Option Str) (chunks : List Str) :
    ∀ st : SSEState, '\n' ∉ st.buf →
      chunks.foldl (sseStep e) st = sseStep e st (concatAll chunks) := by
  induction chunks with
  | nil =>
    intro st h
    simp only [List.foldl_nil, concatAll]
    exact (sseStep_nil e st h).symm
  | cons c cs ih =>
    intro st h
    simp only [List.foldl_cons, concatAll]
    rw [ih (sseStep e st c) (sseStep_buf_no_nl e st c), sseStep_append]

theorem streamSSE_concat (e : Str → Option Str) (chunks : List Str) :
    streamSSE e chunks = streamSSE e [concatAll chunks] := by
  unfold streamSSE
  rw [foldl_sseStep e chunks ⟨[], [], []⟩ (by simp),
    foldl_sseStep e [concatAll chunks] ⟨[], [], []⟩ (by simp)]
  simp [concatAll]

theorem streamSSE_calls (e : Str → Option Str) (chunks : List Str) :
    (streamSSE e chunks).calls = processLines e (splitNl (concatAll chunks)) := by
  unfold streamSSE
  rw [foldl_sseStep e chunks ⟨[], [], []⟩ (by simp)]
  simp only [sseFinish, sseStep, List.nil_append]
  rw [← processLines_single, ← processLines_append,
    dropLast_append_getLastD _ _ (splitNl_ne_nil _)]

theorem streamSSE_fullText (e : Str → Option Str) (chunks : List Str) :
    (streamSSE e chunks).fullText = concatAll (streamSSE e chunks).calls := by
  unfold streamSSE
  rw [foldl_sseStep e chunks ⟨[], [], []⟩ (by simp)]
  simp [sseFinish, sseStep, concatAll_append]

theorem handleLine_extract_none (e : Str → Option Str) (line : Str)
    (h : e (trimChars (line.drop 6)) = none) : handleLine e line = [] := by
  simp only [handleLine]
  split
  · split
    · rw [h]
    · rfl
  · rfl

theorem handleLine_extract_empty (e : Str → Option Str) (line : Str)
    (h : e (trimChars (line.drop 6)) = some []) : handleLine e line = [] := by
  simp only [handleLine]
  split
  · split
    · rw [h]
      simp
    · rfl
  · rfl

theorem extractGoogle_canonical (t : Str) :
    extractGoogleText (googleChunkJson t) = t := rfl

theorem extractOpenAI_canonical (t : Str) :
    extractOpenAIText (openaiChunkJson t) = t := rfl

theorem getLastD_append_single {α : Type} (xs : List α) (x d : α) :
    (xs ++ [x]).getLastD d = x := by
  induction xs generalizing d with
  | nil => rfl
  | cons y ys ih =>
    rw [List.cons_append, List.getLastD_cons]
    exact ih y

/-- C2: for every byte stream and every way of slicing it into chunks,
`streamSSEResponse` produces the identical final accumulated text and the
identical sequence of `onChunk` deltas (every slicing agrees with the
one-chunk slicing of the same bytes); in particular the chunks
`'data: {"te'` then `'xt":"Hi"}\n\n'`, with the extractor reading the
`text` field, yield `"Hi"` exactly once. -/
theorem sse_chunk_split_invariance :
    (∀ (extract : Str → Option Str) (chunks : List Str),
        streamSSE extract chunks = streamSSE extract [concatAll chunks])
    ∧ streamSSE textFieldExtract
        [("data: \x7b\"te").toList, ("xt\":\"Hi\"\x7d\n\n").toList] =
      ⟨("Hi").toList, [("Hi").toList]⟩ :=
  ⟨streamSSE_concat, by decide⟩

/-- C3 counterexample: the stdout handler appends a newline to every chunk
before splitting, so a chunk with no trailing newline is *not* held back:
feeding `"ab"` leaves an empty carry buffer and emits `"ab"` as a complete
line at once, and feeding the two halves `"ab"`, `"cd"` of one message
yields the two fragments as separate lines — the reassembled message
`"abcd"` is never produced. -/
theorem stdio_partial_line_not_held_cex :
    stdioDemuxStep [] (("ab").toList) = ([], [("ab").toList])
    ∧ (stdioDemuxStep [] (("ab").toList)).1 ≠ ("ab").toList
    ∧ (stdioDemuxStep [] (("ab").toList)).2 ++
        (stdioDemuxStep (stdioDemuxStep [] (("ab").toList)).1
          (("cd").toList)).2 = [("ab").toList, ("cd").toList]
    ∧ ("abcd").toList ∉
        (stdioDemuxStep [] (("ab").toList)).2 ++
          (stdioDemuxStep (stdioDemuxStep [] (("ab").toList)).1
            (("cd").toList)).2 := by
  decide

/-- C3 amended: because the handler runs `buffer += data + '\n'`, every
chunk is treated as a whole number of lines: after processing any chunk the
carry buffer is always empty, and the lines handed to the parse loop are
exactly the newline-split of `buffer ++ chunk`.  A trailing partial line is
therefore never held back, and a JSON-RPC message split across two stdout
chunks is parsed as two separate fragments (each dropped as non-JSON), not
reassembled. -/
theorem stdio_chunk_whole_lines (buf data : Str) :
    (stdioDemuxStep buf data).1 = [] ∧
    (stdioDemuxStep buf data).2 = splitNl (buf ++ data) := by
  unfold stdioDemuxStep
  rw [splitNl_append_nl (buf ++ data)]
  exact ⟨getLastD_append_single _ _ _, by simp⟩

/-- C8: `streamSSEResponse` applies the per-line handling (`data: ` guard,
trim, `[DONE]`/empty skip, extract, emit when non-empty) to exactly the
newline-split lines of the whole stream, in arrival order and including the
final flush of a non-terminated trailing line; the returned value is the
concatenation of the `onChunk` deltas; a line whose payload fails to parse
or extracts an empty text contributes nothing; and the Google and
OpenAI/Groq extractors read `candidates[0].content.parts[0].text` and
`choices[0].delta.content` respectively. -/
theorem sse_decoder_line_spec (e : Str → Option Str) (chunks : List Str) :
    (streamSSE e chunks).fullText = concatAll (streamSSE e chunks).calls
    ∧ (streamSSE e chunks).calls = processLines e (splitNl (concatAll chunks))
    ∧ (∀ t, extractGoogleText (googleChunkJson t) = t)
    ∧ (∀ t, extractOpenAIText (openaiChunkJson t) = t)
    ∧ (∀ line, e (trimChars (line.drop 6)) = none → handleLine e line = [])
    ∧ (∀ line, e (trimChars (line.drop 6)) = some [] →
        handleLine e line = []) :=
  ⟨streamSSE_fullText e chunks, streamSSE_calls e chunks,
   fun t => extractGoogle_canonical t,
   fun t => extractOpenAI_canonical t,
   fun line h => handleLine_extract_none e line h,
   fun line h => handleLine_extract_empty e line h⟩

theorem sse_decoder_line_spec_witness :
    (streamSSE textFieldExtract [("data: x\n").toList]).fullText
        = concatAll (streamSSE textFieldExtract [("data: x\n").toList]).calls
    ∧ handleLine textFieldExtract (("data: x").toList) = [] := by
  obtain ⟨h1, h2, h3, h4, h5, h6⟩ :=
    sse_decoder_line_spec textFieldExtract [("data: x\n").toList]
  exact ⟨h1, h5 (("data: x").toList) (by decide)⟩

/-! ## Theorems: association-list maps -/

theorem mem_keys_of_lookupKey {K V : Type} [DecidableEq K] (k : K)
    (m : List (K × V)) (h : (lookupKey k m).isSome) :
    k ∈ m.map Prod.fst := by
  induction m with
  | nil => simp [lookupKey] at h
  | cons p rest ih =>
    obtain ⟨k1, v⟩ := p
    by_cases hk : k1 = k
    · simp [hk]
    · simp only [lookupKey, if_neg hk] at h
      simp [ih h]

theorem lookupKey_removeKey_ne {K V : Type} [DecidableEq K] (k j : K)
    (m : List (K × V)) (h : j ≠ k) :
    lookupKey j (removeKey k m) = lookupKey j m := by
  induction m with
  | nil => rfl
  | cons p rest ih =>
    obtain ⟨k1, v⟩ := p
    simp only [removeKey, lookupKey]
    by_cases hk : k1 = k
    · rw [if_pos hk, if_neg (fun hj : k1 = j => h (hj ▸ hk))]
    · rw [if_neg hk]
      simp only [lookupKey]
      by_cases hj : k1 = j
      · rw [if_pos hj, if_pos hj]
      · rw [if_neg hj, if_neg hj, ih]

theorem lookupKey_eq_none_of_not_mem {K V : Type} [DecidableEq K] (k : K)
    (m : List (K × V)) (h : k ∉ m.map Prod.fst) : lookupKey k m = none := by
  induction m with
  | nil => rfl
  | cons p rest ih =>
    obtain ⟨k1, v⟩ := p
    simp only [List.map_cons, List.mem_cons, not_or] at h
    simp only [lookupKey]
    rw [if_neg (fun he : k1 = k => h.1 he.symm), ih h.2]

theorem lookupKey_isSome_of_mem {K V : Type} [DecidableEq K] (k : K)
    (m : List (K × V)) (h : k ∈ m.map Prod.fst) :
    (lookupKey k m).isSome := by
  induction m with
  | nil => simp at h
  | cons p rest ih =>
    obtain ⟨k1, v⟩ := p
    by_cases hk : k1 = k
    · simp [lookupKey, hk]
    · simp only [List.map_cons, List.mem_cons] at h
      rcases h with h | h
      · exact absurd h.symm hk
      · simp only [lookupKey, if_neg hk]
        exact ih h

theorem lookupKey_removeKey_self {K V : Type} [DecidableEq K] (k : K)
    (m : List (K × V)) (h : (m.map Prod.fst).Nodup) :
    lookupKey k (removeKey k m) = none := by
  induction m with
  | nil => rfl
  | cons p rest ih =>
    obtain ⟨k1, v⟩ := p
    simp only [List.map_cons, List.nodup_cons] at h
    by_cases hk : k1 = k
    · subst hk
      simp only [removeKey, if_pos rfl]
      exact lookupKey_eq_none_of_not_mem k1 rest h.1
    · simp only [removeKey, if_neg hk, lookupKey, if_neg hk]
      exact ih h.2

theorem removeKey_keys_sublist {K V : Type} [DecidableEq K] (k : K)
    (m : List (K × V)) :
    ((removeKey k m).map Prod.fst).Sublist (m.map Prod.fst) := by
  induction m with
  | nil => simp [removeKey]
  | cons p rest ih =>
    obtain ⟨k1, v⟩ := p
    by_cases hk : k1 = k
    · simp only [removeKey, if_pos hk, List.map_cons]
      exact (List.Sublist.refl _).cons k1
    · simp only [removeKey, if_neg hk, List.map_cons]
      exact List.Sublist.cons₂ k1 ih

theorem lookupKey_setKey_self {K V : Type} [DecidableEq K] (k : K) (v : V)
    (m : List (K × V)) : lookupKey k (setKey k v m) = some v := by
  induction m with
  | nil => simp [setKey, lookupKey]
  | cons p rest ih =>
    obtain ⟨k1, v1⟩ := p
    by_cases hk : k1 = k
    · simp [setKey, hk, lookupKey]
    · simp only [setKey, if_neg hk, lookupKey, if_neg hk]
      exact ih

/-! ## Theorems: the request correlator -/

theorem corrStep_keys_sublist (p : List (Nat × Str)) (e : CorrEvent) :
    (((corrStep p e).1).map Prod.fst).Sublist (p.map Prod.fst) := by
  cases e with
  | response r =>
    simp only [corrStep, handleResponse]
    cases h : lookupKey r.id p with
    | none => simp
    | some m => simpa using removeKey_keys_sublist r.id p
  | timeout id =>
    simp only [corrStep, timeoutFire]
    cases h : lookupKey id p with
    | none => simp
    | some m => simpa using removeKey_keys_sublist id p

theorem corrStep_some (p : List (Nat × Str)) (e : CorrEvent)
    (d : Nat × CorrOutcome) (h : (corrStep p e).2 = some d) :
    (corrStep p e).1 = removeKey d.1 p ∧ (lookupKey d.1 p).isSome := by
  cases e with
  | response r =>
    simp only [corrStep, handleResponse] at h ⊢
    cases hl : lookupKey r.id p with
    | none => simp [hl] at h
    | some m =>
      simp only [hl] at h ⊢
      simp only [Option.some.injEq] at h
      subst h
      simp [hl]
  | timeout id =>
    simp only [corrStep, timeoutFire] at h ⊢
    cases hl : lookupKey id p with
    | none => simp [hl] at h
    | some m =>
      simp only [hl] at h ⊢
      simp only [Option.some.injEq] at h
      subst h
      simp [hl]

theorem corrRun_delivery_mem (evs : List CorrEvent) :
    ∀ (p : List (Nat × Str)) d, d ∈ (corrRun p evs).2 →
      d.1 ∈ p.map Prod.fst := by
  induction evs with
  | nil => intro p d hd; simp [corrRun] at hd
  | cons e es ih =>
    intro p d hd
    simp only [corrRun, List.mem_append] at hd
    rcases hd with hd | hd
    · revert hd
      cases hs : (corrStep p e).2 with
      | none => intro hd; simp at hd
      | some d0 =>
        intro hd
        simp only [Option.toList_some, List.mem_singleton] at hd
        rw [hd]
        exact mem_keys_of_lookupKey _ _ (corrStep_some p e d0 hs).2
    · have := ih (corrStep p e).1 d hd
      exact (corrStep_keys_sublist p e).subset this

theorem corrStep_keys_nodup (p : List (Nat × Str)) (e : CorrEvent)
    (h : (p.map Prod.fst).Nodup) : (((corrStep p e).1).map Prod.fst).Nodup :=
  (corrStep_keys_sublist p e).nodup h

theorem corrRun_deliveries_nodup (evs : List CorrEvent) :
    ∀ (p : List (Nat × Str)), (p.map Prod.fst).Nodup →
      (((corrRun p evs).2).map Prod.fst).Nodup := by
  induction evs with
  | nil => intro p _; simp [corrRun]
  | cons e es ih =>
    intro p hp
    simp only [corrRun]
    cases hs : (corrStep p e).2 with
    | none =>
      simpa using ih (corrStep p e).1 (corrStep_keys_nodup p e hp)
    | some d =>
      simp only [Option.toList_some, List.singleton_append, List.map_cons,
        List.nodup_cons]
      refine ⟨?_, ih (corrStep p e).1 (corrStep_keys_nodup p e hp)⟩
      intro hmem
      simp only [List.mem_map] at hmem
      obtain ⟨d2, hd2, hfst⟩ := hmem
      have hmem2 : d2.1 ∈ ((corrStep p e).1).map Prod.fst :=
        corrRun_delivery_mem es (corrStep p e).1 d2 hd2
      obtain ⟨hrem, _⟩ := corrStep_some p e d hs
      rw [hrem, hfst] at hmem2
      have : lookupKey d.1 (removeKey d.1 p) = none :=
        lookupKey_removeKey_self d.1 p hp
      have hsome : (lookupKey d.1 (removeKey d.1 p)).isSome :=
        lookupKey_isSome_of_mem _ _ hmem2
      rw [this] at hsome
      simp at hsome

/-- C1: over any sequence of inbound responses and timeout firings, each
response completes at most one pending request: a delivered completion
targets exactly the response's id, whose entry existed and is removed (all
other entries untouched); a response with no pending entry is discarded
with no effect; a fired timeout removes the entry, so a later response for
that id finds nothing; and across a whole event sequence each pending entry
is completed at most once (timeout and response are mutually exclusive
terminal events). -/
theorem correlator_at_most_once (pending : List (Nat × Str))
    (r : JsonRpcResponse) (evs : List CorrEvent) :
    (∀ d, (handleResponse pending r).2 = some d →
        d.1 = r.id
        ∧ (lookupKey r.id pending).isSome
        ∧ ((pending.map Prod.fst).Nodup →
            lookupKey r.id (handleResponse pending r).1 = none)
        ∧ ∀ j, j ≠ r.id →
            lookupKey j (handleResponse pending r).1 = lookupKey j pending)
    ∧ (lookupKey r.id pending = none →
        handleResponse pending r = (pending, none))
    ∧ ((pending.map Prod.fst).Nodup → ∀ id, (timeoutFire pending id).2.isSome →
        lookupKey id (timeoutFire pending id).1 = none)
    ∧ ((pending.map Prod.fst).Nodup →
        (((corrRun pending evs).2).map Prod.fst).Nodup) := by
  refine ⟨?_, ?_, ?_, fun hp => corrRun_deliveries_nodup evs pending hp⟩
  · intro d hd
    have hsome := (corrStep_some pending (CorrEvent.response r) d hd).1
    simp only [corrStep] at hsome hd
    simp only [handleResponse] at hd ⊢
    cases hl : lookupKey r.id pending with
    | none => simp [hl] at hd
    | some m =>
      simp only [hl] at hd ⊢
      simp only [Option.some.injEq] at hd
      subst hd
      refine ⟨rfl, by simp [hl], ?_, ?_⟩
      · intro hnd
        simpa using lookupKey_removeKey_self r.id pending hnd
      · intro j hj
        simpa using lookupKey_removeKey_ne r.id j pending hj
  · intro hl
    simp [handleResponse, hl]
  · intro hnd id hsome
    simp only [timeoutFire] at hsome ⊢
    cases hl : lookupKey id pending with
    | none => simp [hl] at hsome
    | some m =>
      simp only [hl]
      simpa using lookupKey_removeKey_self id pending hnd

theorem correlator_at_most_once_witness :
    lookupKey 1 (timeoutFire [(1, ("tools/call").toList)] 1).1 = none
    ∧ (((corrRun [(1, ("tools/call").toList)]
        [CorrEvent.timeout 1,
         CorrEvent.response ⟨1, none, none⟩]).2).map Prod.fst).Nodup := by
  obtain ⟨ha, hb, hc, hd⟩ :=
    correlator_at_most_once [(1, ("tools/call").toList)] ⟨1, none, none⟩
      [CorrEvent.timeout 1, CorrEvent.response ⟨1, none, none⟩]
  exact ⟨hc (by decide) 1 (by decide), hd (by decide)⟩

/-- C7 counterexample: the domain error built by `handleResponse` is
`new Error(response.error.message)` — it depends only on the protocol
error's message, so two responses whose error objects differ only in their
`code` produce identical rejections; the rejection for
`{code: -32601, message: "boom"}` carries just `"boom"` and no code. -/
theorem protocol_error_code_dropped_cex :
    handleResponse [(1, ("tools/call").toList)]
        ⟨1, none, some ⟨-32601, ("boom").toList⟩⟩
      = handleResponse [(1, ("tools/call").toList)]
        ⟨1, none, some ⟨-32700, ("boom").toList⟩⟩
    ∧ (⟨-32601, ("boom").toList⟩ : JsonRpcError)
        ≠ (⟨-32700, ("boom").toList⟩ : JsonRpcError)
    ∧ (handleResponse [(1, ("tools/call").toList)]
        ⟨1, none, some ⟨-32601, ("boom").toList⟩⟩).2
      = some (1, CorrOutcome.rejected (("boom").toList)) :=
  ⟨rfl, by decide, rfl⟩

/-- C7 amended: when a response carries a JSON-RPC error object, the
correlator rejects exactly that pending request with a domain error
carrying the protocol error's message (the error's code is dropped, not
included in the domain error), and every other in-flight request on the
session is unaffected. -/
theorem protocol_error_rejection (pending : List (Nat × Str))
    (r : JsonRpcResponse) (e : JsonRpcError)
    (herr : r.error = some e) (hpend : (lookupKey r.id pending).isSome) :
    (handleResponse pending r).2 = some (r.id, CorrOutcome.rejected e.message)
    ∧ ∀ j, j ≠ r.id →
        lookupKey j (handleResponse pending r).1 = lookupKey j pending := by
  simp only [handleResponse]
  cases hl : lookupKey r.id pending with
  | none => rw [hl] at hpend; simp at hpend
  | some m =>
    rw [herr]
    exact ⟨rfl, fun j hj => by
      simpa using lookupKey_removeKey_ne r.id j pending hj⟩

theorem protocol_error_rejection_witness :
    (handleResponse [(1, ("m").toList), (2, ("m2").toList)]
        ⟨1, none, some ⟨-32601, ("boom").toList⟩⟩).2
      = some (1, CorrOutcome.rejected (("boom").toList))
    ∧ lookupKey 2 (handleResponse [(1, ("m").toList), (2, ("m2").toList)]
        ⟨1, none, some ⟨-32601, ("boom").toList⟩⟩).1
      = lookupKey 2 [(1, ("m").toList), (2, ("m2").toList)] := by
  obtain ⟨h1, h2⟩ :=
    protocol_error_rejection [(1, ("m").toList), (2, ("m2").toList)]
      ⟨1, none, some ⟨-32601, ("boom").toList⟩⟩ ⟨-32601, ("boom").toList⟩
      rfl (by decide)
  exact ⟨h1, h2 2 (by decide)⟩

/-! ## Theorems: registry lifecycle -/

theorem countP_eq_one_of_nodup_mem {K : Type} [DecidableEq K]
    (l : List K) (a : K) (hnd : l.Nodup) (h : a ∈ l) :
    l.countP (fun x => decide (x = a)) = 1 := by
  induction l with
  | nil => simp at h
  | cons b rest ih =>
    simp only [List.nodup_cons] at hnd
    rcases List.mem_cons.mp h with rfl | hmem
    · have hz : rest.countP (fun x => decide (x = a)) = 0 := by
        rw [List.countP_eq_zero]
        intro x hx
        simp only [decide_eq_true_eq]
        exact fun he => hnd.1 (he ▸ hx)
      simp [List.countP_cons, hz]
    · have hb : ¬ b = a := fun he => hnd.1 (he ▸ hmem)
      simp [List.countP_cons, hb, ih hnd.2 hmem]

/-- C9: stop and start are idempotent at the registry level.  Stopping a
server with no active session changes nothing (registry and store state);
starting a server that already has an active session returns without
touching anything and without error, and exactly one active session for
that id remains. -/
theorem registry_start_stop_idempotent (env : StopEnv)
    (envS : StdioStartEnv) (envH : HttpStartEnv) (s : SysState)
    (id : Str) (cfg : MCPServerConfig) :
    (lookupKey id s.active = none → stopMCPServer env s id = s)
    ∧ ((lookupKey cfg.id s.active).isSome →
        startMCPServer envS envH s cfg = (s, none)
        ∧ ((s.active.map Prod.fst).Nodup →
            (((startMCPServer envS envH s cfg).1.active).map Prod.fst).countP
              (fun sid => decide (sid = cfg.id)) = 1)) := by
  constructor
  · intro h
    simp [stopMCPServer, h]
  · intro h
    have hstart : startMCPServer envS envH s cfg = (s, none) := by
      cases cfg with
      | stdio c =>
        have h2 : (lookupKey c.id s.active).isSome := h
        simp [startMCPServer, startStdioServer, h2]
      | http c =>
        have h2 : (lookupKey c.id s.active).isSome := h
        simp [startMCPServer, startHttpServer, h2]
    refine ⟨hstart, fun hnd => ?_⟩
    rw [hstart]
    exact countP_eq_one_of_nodup_mem _ _ hnd
      (mem_keys_of_lookupKey cfg.id s.active h)

theorem registry_start_stop_idempotent_witness :
    stopMCPServer ⟨none⟩
        ⟨[(("a").toList, freshSession .stdio)], []⟩ (("b").toList)
      = ⟨[(("a").toList, freshSession .stdio)], []⟩
    ∧ startMCPServer ⟨none, none, Except.ok none⟩ ⟨none, none, Except.ok none⟩
        ⟨[(("a").toList, freshSession .stdio)], []⟩
        (MCPServerConfig.stdio
          ⟨("a").toList, ("n").toList, true, ("c").toList, []⟩)
      = (⟨[(("a").toList, freshSession .stdio)], []⟩, none)
    ∧ (((startMCPServer ⟨none, none, Except.ok none⟩
          ⟨none, none, Except.ok none⟩
          ⟨[(("a").toList, freshSession .stdio)], []⟩
          (MCPServerConfig.stdio
            ⟨("a").toList, ("n").toList, true, ("c").toList, []⟩)).1.active).map
          Prod.fst).countP (fun sid => decide (sid = ("a").toList)) = 1 := by
  obtain ⟨h1, h2⟩ :=
    registry_start_stop_idempotent ⟨none⟩ ⟨none, none, Except.ok none⟩
      ⟨none, none, Except.ok none⟩
      ⟨[(("a").toList, freshSession .stdio)], []⟩ (("b").toList)
      (MCPServerConfig.stdio
        ⟨("a").toList, ("n").toList, true, ("c").toList, []⟩)
  obtain ⟨h2a, h2b⟩ := h2 (by decide)
  exact ⟨h1 (by decide), h2a, h2b (by decide)⟩

/-- C10: when the `tools/list` round-trip of the start handshake resolves
with a null/undefined result, or with a result lacking a usable `tools`
field, the tool-list helpers fall back to the empty list, the start does
not fail, and the session reaches `connected` with zero tools — for both
transports. -/
theorem null_tools_list_connects (envS : StdioStartEnv)
    (envH : HttpStartEnv) (s : SysState) (cS : StdioConfig)
    (cH : HttpConfig) (payS payH : Option (Option (List MCPTool)))
    (hS0 : lookupKey cS.id s.active = none)
    (hS1 : envS.spawn = none) (hS2 : envS.initCall = none)
    (hS3 : envS.toolsCall = Except.ok payS)
    (hS4 : payS = none ∨ payS = some none)
    (hH0 : lookupKey cH.id s.active = none)
    (hH1 : envH.connectSSE = none) (hH2 : envH.initCall = none)
    (hH3 : envH.toolsCall = Except.ok payH)
    (hH4 : payH = none ∨ payH = some none) :
    ((startStdioServer envS s cS).2 = none
      ∧ lookupKey cS.id (startStdioServer envS s cS).1.states
          = some ⟨.connected, [], none⟩)
    ∧ ((startHttpServer envH s cH).2 = none
      ∧ lookupKey cH.id (startHttpServer envH s cH).1.states
          = some ⟨.connected, [], none⟩) := by
  have hpayS : toolsOfPayload payS = [] := by
    rcases hS4 with h | h <;> simp [h, toolsOfPayload]
  have hpayH : toolsOfPayload payH = [] := by
    rcases hH4 with h | h <;> simp [h, toolsOfPayload]
  have hS : startStdioServer envS s cS =
      ({ states := setServerState
            (setServerState s.states cS.id connectingUpdate) cS.id
            (connectedUpdate []),
         active := setKey cS.id (freshSession .stdio) s.active }, none) := by
    simp [startStdioServer, hS0, hS1, hS2, hS3, hpayS]
  have hH : startHttpServer envH s cH =
      ({ states := setServerState
            (setServerState s.states cH.id connectingUpdate) cH.id
            (connectedUpdate []),
         active := setKey cH.id (freshSession .http) s.active }, none) := by
    simp [startHttpServer, hH0, hH1, hH2, hH3, hpayH]
  refine ⟨⟨by rw [hS], ?_⟩, ⟨by rw [hH], ?_⟩⟩
  · rw [hS]
    simp only [setServerState]
    rw [lookupKey_setKey_self, lookupKey_setKey_self]
    simp [applyUpdate, connectingUpdate, connectedUpdate]
  · rw [hH]
    simp only [setServerState]
    rw [lookupKey_setKey_self, lookupKey_setKey_self]
    simp [applyUpdate, connectingUpdate, connectedUpdate]

theorem null_tools_list_connects_witness :
    (startStdioServer ⟨none, none, Except.ok none⟩ ⟨[], []⟩
        ⟨("a").toList, ("n").toList, true, ("c").toList, []⟩).2 = none
    ∧ lookupKey (("a").toList)
        (startStdioServer ⟨none, none, Except.ok none⟩ ⟨[], []⟩
          ⟨("a").toList, ("n").toList, true, ("c").toList, []⟩).1.states
      = some ⟨.connected, [], none⟩
    ∧ (startHttpServer ⟨none, none, Except.ok (some none)⟩ ⟨[], []⟩
        ⟨("b").toList, ("n").toList, true, ("u").toList⟩).2 = none := by
  obtain ⟨⟨h1, h2⟩, ⟨h3, h4⟩⟩ :=
    null_tools_list_connects ⟨none, none, Except.ok none⟩
      ⟨none, none, Except.ok (some none)⟩ ⟨[], []⟩
      ⟨("a").toList, ("n").toList, true, ("c").toList, []⟩
      ⟨("b").toList, ("n").toList, true, ("u").toList⟩
      none (some none) rfl rfl rfl rfl (Or.inl rfl)
      rfl rfl rfl rfl (Or.inr rfl)
  exact ⟨h1, h2, h3⟩

/-! ## Theorems: tool execution and the orchestration loop -/

/-- C5: a tool call whose name no connected server offers is synthesized
into an error entry (status `error`, `not found` text) with an empty
network trace; and `callTool` on a server id with no active session
returns the error-flagged `not running` result immediately, with no
request sent. -/
theorem unknown_tool_no_network (a : AbortEnv)
    (oracle : Nat → Except Str MCPToolCallResult)
    (servers : List MCPServerConfig)
    (states : List (Str × ServerRuntimeState))
    (active : List (Str × SessionState)) (count : Nat) (tc : ToolCall)
    (serverId toolName : Str) (args : Json)
    (hfind : findToolServer states tc.name servers = none)
    (hsess : lookupKey serverId active = none) :
    executeToolCalls a oracle servers states active count [tc]
      = ([⟨tc.id, tc.name, notFoundMsg tc.name⟩],
         [(tc.id, ToolCallStatus.executing, none),
          (tc.id, ToolCallStatus.error, some (notFoundMsg tc.name))],
         [], count)
    ∧ callTool a oracle active count serverId toolName args
      = (serverNotRunningResult serverId, [], count)
    ∧ (serverNotRunningResult serverId).isError = true := by
  refine ⟨?_, ?_, rfl⟩
  · simp [executeToolCalls, hfind]
  · simp [callTool, hsess]

theorem unknown_tool_no_network_witness :
    executeToolCalls ⟨none⟩ (fun _ => Except.error []) [] [] [] 0
        [⟨("c1").toList, ("nope").toList, Json.null⟩]
      = ([⟨("c1").toList, ("nope").toList, notFoundMsg (("nope").toList)⟩],
         [((("c1").toList), ToolCallStatus.executing, none),
          ((("c1").toList), ToolCallStatus.error,
            some (notFoundMsg (("nope").toList)))],
         [], 0)
    ∧ callTool ⟨none⟩ (fun _ => Except.error []) [] 0 (("x").toList)
        (("nope").toList) Json.null
      = (serverNotRunningResult (("x").toList), [], 0) := by
  obtain ⟨h1, h2, h3⟩ :=
    unknown_tool_no_network ⟨none⟩ (fun _ => Except.error []) [] [] [] 0
      ⟨("c1").toList, ("nope").toList, Json.null⟩ (("x").toList)
      (("nope").toList) Json.null rfl rfl
  exact ⟨h1, h2⟩

theorem llmCount_append (a b : List NetEvent) :
    llmCount (a ++ b) = llmCount a + llmCount b := by
  induction a with
  | nil => simp [llmCount]
  | cons e rest ih =>
    cases e with
    | llmRequest i b => simp [llmCount, ih]; omega
    | toolRequest sid tn b => simp [llmCount, ih]

theorem callTool_trace_only_tools (a : AbortEnv)
    (oracle : Nat → Except Str MCPToolCallResult)
    (active : List (Str × SessionState)) (count : Nat)
    (sid tn : Str) (args : Json) (i : Nat) (b : Bool) :
    NetEvent.llmRequest i b ∉ (callTool a oracle active count sid tn args).2.1 := by
  cases hl : lookupKey sid active with
  | none => simp [callTool, hl]
  | some ss =>
    cases ho : oracle count with
    | ok r => simp [callTool, hl, ho]
    | error m => simp [callTool, hl, ho]

theorem exec_trace_only_tools (a : AbortEnv)
    (oracle : Nat → Except Str MCPToolCallResult)
    (servers : List MCPServerConfig)
    (states : List (Str × ServerRuntimeState))
    (active : List (Str × SessionState)) (tcs : List ToolCall) :
    ∀ (count i : Nat) (b : Bool),
      NetEvent.llmRequest i b ∉
        (executeToolCalls a oracle servers states active count tcs).2.2.1 := by
  induction tcs with
  | nil => intro count i b; simp [executeToolCalls]
  | cons tc rest ih =>
    intro count i b
    cases hf : findToolServer states tc.name servers with
    | none =>
      simp only [executeToolCalls, hf]
      exact ih count i b
    | some sid =>
      simp only [executeToolCalls, hf, List.mem_append, not_or]
      exact ⟨callTool_trace_only_tools a oracle active count sid tc.name
        tc.arguments i b, ih _ i b⟩

theorem llmCount_eq_zero (l : List NetEvent)
    (h : ∀ (i : Nat) (b : Bool), NetEvent.llmRequest i b ∉ l) :
    llmCount l = 0 := by
  induction l with
  | nil => rfl
  | cons e rest ih =>
    cases e with
    | llmRequest i b => exact absurd (List.mem_cons_self _ _) (h i b)
    | toolRequest sid tn b =>
      simp only [llmCount]
      exact ih (fun i b2 hmem => h i b2 (List.mem_cons_of_mem _ hmem))

theorem chatLoop_llmCount_le (env : ChatEnv) :
    ∀ (fuel iterations count : Nat),
      llmCount (chatLoop env fuel iterations count).2 ≤ fuel := by
  intro fuel
  induction fuel with
  | zero => intro iterations count; simp [chatLoop, llmCount]
  | succ n ih =>
    intro iterations count
    simp only [chatLoop]
    by_cases h1 : iterations < maxIterations
    · rw [if_pos h1]
      by_cases h2 : signalAt env.abort count = true
      · rw [if_pos h2]; simp [llmCount]
      · rw [if_neg h2]
        split
        · simp only [llmCount]
          omega
        · split
          · simp only [llmCount]
            omega
          · rename_i resp heq tc tcs heq2
            simp only [llmCount, llmCount_append]
            have hz : llmCount (executeToolCalls env.abort env.oracle
                env.servers env.states env.active (count + 1)
                (tc :: tcs)).2.2.1 = 0 :=
              llmCount_eq_zero _ (fun i b => exec_trace_only_tools env.abort
                env.oracle env.servers env.states env.active (tc :: tcs)
                (count + 1) i b)
            rw [hz]
            have := ih (iterations + 1) (executeToolCalls env.abort
              env.oracle env.servers env.states env.active (count + 1)
              (tc :: tcs)).2.2.2
            omega
    · rw [if_neg h1]
      simp [llmCount]

/-- C4: for every environment — in particular when the model returns tool
calls on every iteration — the orchestration loop of
`handleChatCompletion` performs at most `maxIterations = 10` LLM
round-trips and then terminates (the loop function is total); on the demo
environment whose model requests tools every time, it performs exactly
10. -/
theorem tool_loop_bounded (env : ChatEnv) :
    llmCount (chatTurn env).2 ≤ maxIterations
    ∧ maxIterations = 10
    ∧ llmCount (chatTurn loopDemoEnv).2 = 10 :=
  ⟨chatLoop_llmCount_le env maxIterations 0 0, rfl, by decide⟩

/-- C6 counterexample: in `cancelDemoEnv` the user cancels after the
second network event, while the first model response requested two tool
invocations; the second `tools/call` is still sent with the signal already
aborted — the loop does not check the cancellation signal before tool
network calls, refuting "once the signal is set, no further network call
is made". -/
theorem cancellation_tool_call_after_abort_cex :
    (chatTurn cancelDemoEnv).1 = TurnOutcome.aborted
    ∧ (chatTurn cancelDemoEnv).2 =
        [NetEvent.llmRequest 0 false,
         NetEvent.toolRequest (("s1").toList) (("t").toList) false,
         NetEvent.toolRequest (("s1").toList) (("t").toList) true]
    ∧ NetEvent.toolRequest (("s1").toList) (("t").toList) true
        ∈ (chatTurn cancelDemoEnv).2 := by
  decide

theorem chatLoop_llm_not_aborted (env : ChatEnv) :
    ∀ (fuel iterations count i : Nat) (b : Bool),
      NetEvent.llmRequest i b ∈ (chatLoop env fuel iterations count).2 →
        b = false := by
  intro fuel
  induction fuel with
  | zero => intro it c i b h; simp [chatLoop] at h
  | succ n ih =>
    intro it c i b h
    simp only [chatLoop] at h
    by_cases h1 : it < maxIterations
    · rw [if_pos h1] at h
      cases h2 : signalAt env.abort c with
      | true => rw [h2] at h; simp at h
      | false =>
        rw [h2] at h
        simp only [Bool.false_eq_true, if_false] at h
        split at h
        · simp only [List.mem_singleton, NetEvent.llmRequest.injEq] at h
          exact h.2
        · split at h
          · simp only [List.mem_singleton, NetEvent.llmRequest.injEq] at h
            exact h.2
          · rename_i resp heq tc tcs heq2
            simp only [List.mem_cons, NetEvent.llmRequest.injEq,
              List.mem_append] at h
            rcases h with ⟨he1, he2⟩ | h | h
            · exact he2
            · exact absurd h (exec_trace_only_tools env.abort env.oracle
                env.servers env.states env.active (tc :: tcs) (c + 1) i b)
            · exact ih (it + 1) _ i b h
    · rw [if_neg h1] at h
      simp at h

/-- C6 amended: the cancellation signal is threaded into each LLM request,
so no LLM request is ever issued with the signal already set, and a signal
set before the turn's first network call makes the turn end as the
distinct `aborted` outcome (not a generic failure) with no network call at
all; tool invocations, however, receive no cancellation signal and are not
preceded by a cancellation check, so tool network calls of the current
batch still go out after the signal is set. -/
theorem cancellation_llm_guarded (env : ChatEnv) :
    (∀ (i : Nat) (b : Bool),
        NetEvent.llmRequest i b ∈ (chatTurn env).2 → b = false)
    ∧ (env.abort.abortAfter = some 0 →
        chatTurn env = (TurnOutcome.aborted, [])) := by
  constructor
  · exact fun i b h => chatLoop_llm_not_aborted env maxIterations 0 0 i b h
  · intro h
    simp [chatTurn, chatLoop, maxIterations, signalAt, h]

theorem cancellation_llm_guarded_witness :
    chatTurn { cancelDemoEnv with abort := ⟨some 0⟩ }
      = (TurnOutcome.aborted, []) :=
  (cancellation_llm_guarded { cancelDemoEnv with abort := ⟨some 0⟩ }).2 rfl

end Nexus
